import Mathlib

/-!
Shallow embedding of the CppNumericalSolvers core (Problem contract,
finite-difference engine, derivative checker, bounded problem, Armijo line
search) over exact rational arithmetic, together with proofs about its
behaviour.

Sources embedded:
  include/cppoptlib/problem.h        (Problem, finiteGradient, finiteHessian,
                                      checkGradient, checkHessian)
  include/cppoptlib/boundedproblem.h (BoundedProblem)
  include/cppoptlib/linesearch/armijo.h (Armijo order 1 and order 2)

Scalars are modelled as exact rationals; vectors as functions from coordinate
indices to rationals.  The unbounded backtracking `while` loop of the line
search is modelled with an explicit fuel parameter: `none` means the loop has
not terminated within the given fuel.
-/

/-- Domain points: dimension-n vectors, modelled as functions from coordinate
indices to exact rationals. -/
abbrev Vec (n : ℕ) : Type := Fin n → ℚ

/-- Square n-by-n matrices (the Hessian representation). -/
abbrev Mat (n : ℕ) : Type := Fin n → Fin n → ℚ

variable {n : ℕ}

/-- Compound assignment `xx[i] += e` on a fresh copy of a vector:
the vector that agrees with `x` everywhere except that coordinate `i`
holds `x i + e`. -/
def bump (x : Vec n) (i : Fin n) (e : ℚ) : Vec n := Function.update x i (x i + e)

/-- Eigen expression `x + a * d` (vector plus scalar times vector). -/
def vadd (x : Vec n) (a : ℚ) (d : Vec n) : Vec n := fun k => x k + a * d k

/-- Eigen dot product `u.dot(v)`. -/
def dotP (u v : Vec n) : ℚ := ∑ i, u i * v i

/-- Eigen matrix-vector product `A * v`. -/
def matVec (A : Mat n) (v : Vec n) : Vec n := fun i => ∑ j, A i j * v j

/-- Stencil weight table `coeff` of `Problem::finiteGradient`. -/
def fdCoeff : List (List ℚ) :=
  [[1, -1], [1, -8, 8, -1], [-1, 9, -45, 45, -9, 1],
   [3, -32, 168, -672, 672, -168, 32, -3]]

/-- Stencil offset table `coeff2` of `Problem::finiteGradient`. -/
def fdCoeff2 : List (List ℚ) :=
  [[1, -1], [-2, -1, 1, 2], [-3, -2, -1, 1, 2, 3], [-4, -3, -2, -1, 1, 2, 3, 4]]

/-- Divisor table `dd` of `Problem::finiteGradient`. -/
def fdDD : List ℚ := [2, 12, 60, 840]

/-- Step size `eps = 2.2204e-6` of `Problem::finiteGradient`. -/
def fdEps : ℚ := 22204 / 10 ^ 10

/-- Translation of `Problem::finiteGradient`: for each coordinate `d`
independently, accumulate `coeff[accuracy][s] * value(x with x[d] += coeff2[accuracy][s]*eps)`
over `s = 0 .. 2*(accuracy+1) - 1` and divide by `dd[accuracy] * eps`. -/
def finiteGradient (value : Vec n → ℚ) (x : Vec n) (accuracy : ℕ) : Vec n := fun d =>
  ((List.range (2 * (accuracy + 1))).foldl
      (fun acc s =>
        acc + (fdCoeff.getD accuracy []).getD s 0 *
          value (bump x d ((fdCoeff2.getD accuracy []).getD s 0 * fdEps)))
      0) /
    (fdDD.getD accuracy 0 * fdEps)

/-- Step size of `Problem::finiteHessian`:
`std::numeric_limits<double>::epsilon() * 10e7`, i.e. `2^-52 * 10^8`. -/
def hessEps : ℚ := 10 ^ 8 / 2 ^ 52

/-- Translation of `Problem::finiteHessian`.  The `accuracy == 0` branch
follows the source's in-place mutation sequence on the work vector `xx`
statement by statement; the `accuracy > 0` branch evaluates the documented
16-point mixed-partial stencil, each point built from a fresh copy of `x`. -/
def finiteHessian (value : Vec n → ℚ) (x : Vec n) (accuracy : ℕ) : Mat n :=
  if accuracy = 0 then fun i j =>
    let xx0 := x
    let f4 := value xx0
    let xx1 := bump xx0 i hessEps
    let xx2 := bump xx1 j hessEps
    let f1 := value xx2
    let xx3 := bump xx2 j (-hessEps)
    let f2 := value xx3
    let xx4 := bump xx3 j hessEps
    let xx5 := bump xx4 i (-hessEps)
    let f3 := value xx5
    (f1 - f2 - f3 + f4) / (hessEps * hessEps)
  else fun i j =>
    let term1 := value (bump (bump x i (1 * hessEps)) j (-2 * hessEps)) +
      value (bump (bump x i (2 * hessEps)) j (-1 * hessEps)) +
      value (bump (bump x i (-2 * hessEps)) j (1 * hessEps)) +
      value (bump (bump x i (-1 * hessEps)) j (2 * hessEps))
    let term2 := value (bump (bump x i (-1 * hessEps)) j (-2 * hessEps)) +
      value (bump (bump x i (-2 * hessEps)) j (-1 * hessEps)) +
      value (bump (bump x i (1 * hessEps)) j (2 * hessEps)) +
      value (bump (bump x i (2 * hessEps)) j (1 * hessEps))
    let term3 := value (bump (bump x i (2 * hessEps)) j (-2 * hessEps)) +
      value (bump (bump x i (-2 * hessEps)) j (2 * hessEps)) -
      value (bump (bump x i (-2 * hessEps)) j (-2 * hessEps)) -
      value (bump (bump x i (2 * hessEps)) j (2 * hessEps))
    let term4 := value (bump (bump x i (-1 * hessEps)) j (-1 * hessEps)) +
      value (bump (bump x i (1 * hessEps)) j (1 * hessEps)) -
      value (bump (bump x i (1 * hessEps)) j (-1 * hessEps)) -
      value (bump (bump x i (-1 * hessEps)) j (1 * hessEps))
    (-63 * term1 + 63 * term2 + 44 * term3 + 74 * term4) / (600 * hessEps * hessEps)

/-- Translation of the `cppoptlib::Problem` class.  `value` is the abstract
objective; the two `Option` fields record whether a derived class overrides
the virtual `gradient` / `hessian` members (`none` = not overridden, so the
default body runs). -/
structure Problem (n : ℕ) where
  value : Vec n → ℚ
  gradientOverride : Option (Vec n → Vec n)
  hessianOverride : Option (Vec n → Mat n)

/-- Virtual dispatch of `Problem::gradient`: an override if present, else the
default body `finiteGradient(x, grad)` (default accuracy argument 0). -/
def Problem.gradient (P : Problem n) (x : Vec n) : Vec n :=
  match P.gradientOverride with
  | some g => g x
  | none => finiteGradient P.value x 0

/-- Virtual dispatch of `Problem::hessian`: an override if present, else the
default body `finiteHessian(x, hessian)` (default accuracy argument 0). -/
def Problem.hessian (P : Problem n) (x : Vec n) : Mat n :=
  match P.hessianOverride with
  | some h => h x
  | none => finiteHessian P.value x 0

/-- Translation of `Problem::checkGradient`: compare the (possibly overridden)
gradient against `finiteGradient` at the given accuracy; return `false` as
soon as one coordinate differs by more than `1e-2 * max(|actual|, |expected|, 1)`. -/
def checkGradient (P : Problem n) (x : Vec n) (accuracy : ℕ) : Bool :=
  let actual := P.gradient x
  let expected := finiteGradient P.value x accuracy
  (List.finRange n).all fun d =>
    ! decide (1 / 100 * max (max |actual d| |expected d|) 1 < |actual d - expected d|)

/-- Translation of `Problem::checkHessian`: entrywise comparison with
tolerance `1e-1 * max(|actual|, |expected|, 1)`. -/
def checkHessian (P : Problem n) (x : Vec n) (accuracy : ℕ) : Bool :=
  let actual := P.hessian x
  let expected := finiteHessian P.value x accuracy
  (List.finRange n).all fun d =>
    (List.finRange n).all fun e =>
      ! decide (1 / 10 * max (max |actual d e| |expected d e|) 1 < |actual d e - expected d e|)

/-- Armijo sufficient-decrease slope factor `c = 0.2`. -/
def armijoC : ℚ := 2 / 10

/-- Armijo backtracking shrink factor `rho = 0.9`. -/
def armijoRho : ℚ := 9 / 10

/-- Fuelled translation of the backtracking `while` loop shared by both
Armijo variants: while `value(x + alpha*d) > fIn + alpha*cache`, shrink
`alpha` by `rho` and re-evaluate.  `none` means the loop did not exit within
`fuel` shrink steps. -/
def armijoLoop (value : Vec n → ℚ) (x searchDir : Vec n) (fIn cache : ℚ) :
    ℕ → ℚ → Option ℚ
  | 0, alpha =>
    if value (vadd x alpha searchDir) ≤ fIn + alpha * cache then some alpha else none
  | fuel + 1, alpha =>
    if value (vadd x alpha searchDir) ≤ fIn + alpha * cache then some alpha
    else armijoLoop value x searchDir fIn cache fuel (alpha * armijoRho)

/-- Translation of `Armijo<ProblemType, 1>::linesearch` (fuelled). -/
def Armijo.linesearch (P : Problem n) (x searchDir : Vec n) (alphaInit : ℚ)
    (fuel : ℕ) : Option ℚ :=
  let fIn := P.value x
  let grad := P.gradient x
  let cache := armijoC * dotP grad searchDir
  armijoLoop P.value x searchDir fIn cache fuel alphaInit

/-- Translation of `Armijo<ProblemType, 2>::linesearch` (fuelled): the slope
cache gains the quadratic correction `0.5 * c^2 * d^T H d`, and the initial
step is fixed at `1.0`. -/
def Armijo2.linesearch (P : Problem n) (x searchDir : Vec n) (fuel : ℕ) : Option ℚ :=
  let fIn := P.value x
  let hess := P.hessian x
  let grad := P.gradient x
  let cache := armijoC * dotP grad searchDir +
    1 / 2 * armijoC * armijoC * dotP searchDir (matVec hess searchDir)
  armijoLoop P.value x searchDir fIn cache fuel 1

/-- Extended scalar modelling the IEEE double values that can appear in a
bound vector: minus infinity, plus infinity, or a finite value. -/
inductive XScalar : Type where
  | negInf : XScalar
  | posInf : XScalar
  | fin : ℚ → XScalar
deriving DecidableEq

/-- Translation of `cppoptlib::BoundedProblem`: the two bound vectors it
always carries (the inherited objective part is orthogonal to the bounds and
not repeated here). -/
structure BoundedProblem (n : ℕ) where
  lowerBound : Fin n → XScalar
  upperBound : Fin n → XScalar

/-- Default constructor of `BoundedProblem`: `m_lowerBound.setConstant(-inf)`,
`m_upperBound.setConstant(+inf)`. -/
def BoundedProblem.mkDefault (n : ℕ) : BoundedProblem n :=
  { lowerBound := fun _ => XScalar.negInf
    upperBound := fun _ => XScalar.posInf }

/-- Translation of `BoundedProblem::setBoxConstraint`, which sets both bound
vectors. -/
def BoundedProblem.setBoxConstraint (_B : BoundedProblem n)
    (lb ub : Fin n → XScalar) : BoundedProblem n :=
  { lowerBound := lb, upperBound := ub }

/-- Caller-owned variables visible across a call into the core: the point
`x`, the search direction, and the gradient / Hessian out-parameters. -/
structure CallerStore (n : ℕ) where
  x : Vec n
  searchDir : Vec n
  grad : Vec n
  hess : Mat n

/-- Effect of a `finiteGradient(x, grad, accuracy)` call on the caller store:
the body perturbs only its local copy `xx` of `x` and finally executes
`grad = finiteDiff`; `x` is taken by const reference and never assigned. -/
def finiteGradientCall (P : Problem n) (accuracy : ℕ) (s : CallerStore n) :
    CallerStore n :=
  { x := s.x, searchDir := s.searchDir,
    grad := finiteGradient P.value s.x accuracy, hess := s.hess }

/-- Effect of a `finiteHessian(x, hessian, accuracy)` call on the caller
store: the body mutates only its local work vector `xx` and writes the
entries of the out-parameter `hessian`. -/
def finiteHessianCall (P : Problem n) (accuracy : ℕ) (s : CallerStore n) :
    CallerStore n :=
  { x := s.x, searchDir := s.searchDir, grad := s.grad,
    hess := finiteHessian P.value s.x accuracy }

/-- Effect of a `checkGradient(x, accuracy)` call: both gradients are written
into local vectors, so the store is untouched; the result is the returned
boolean. -/
def checkGradientCall (P : Problem n) (accuracy : ℕ) (s : CallerStore n) :
    CallerStore n × Bool :=
  (s, checkGradient P s.x accuracy)

/-- Effect of a `checkHessian(x, accuracy)` call: analogous to
`checkGradientCall`. -/
def checkHessianCall (P : Problem n) (accuracy : ℕ) (s : CallerStore n) :
    CallerStore n × Bool :=
  (s, checkHessian P s.x accuracy)

/-- Effect of an `Armijo<P,1>::linesearch(x, searchDir, objFunc, alpha_init)`
call: `x` and `searchDir` are const references, all mutation happens on the
locals `alpha`, `f` and `grad`; the result is the returned step length. -/
def linesearchCall (P : Problem n) (alphaInit : ℚ) (fuel : ℕ)
    (s : CallerStore n) : CallerStore n × Option ℚ :=
  (s, Armijo.linesearch P s.x s.searchDir alphaInit fuel)

/-- Pointwise characterisation of `bump`. -/
theorem bump_apply (x : Vec n) (i : Fin n) (e : ℚ) (k : Fin n) :
    bump x i e k = if k = i then x i + e else x k := by
  simp [bump, Function.update_apply]

/-- Two successive increments of the same coordinate add up. -/
theorem bump_bump_same (x : Vec n) (i : Fin n) (a b : ℚ) :
    bump (bump x i a) i b = bump x i (a + b) := by
  funext k
  simp only [bump_apply]
  by_cases h : k = i <;> simp [h, add_assoc]

/-- Incrementing a coordinate by zero is the identity. -/
theorem bump_zero (x : Vec n) (i : Fin n) : bump x i 0 = x := by
  funext k
  simp only [bump_apply]
  by_cases h : k = i <;> simp [h]

/-- Increments of two coordinates commute (also when the coordinates
coincide). -/
theorem bump_comm (x : Vec n) (i j : Fin n) (a b : ℚ) :
    bump (bump x i a) j b = bump (bump x j b) i a := by
  by_cases hij : i = j
  · subst hij
    rw [bump_bump_same, bump_bump_same, add_comm]
  · funext k
    simp only [bump_apply]
    by_cases hki : k = i <;> by_cases hkj : k = j <;> simp_all

/-- Shorthand for the exit test of the backtracking loop at step `a`. -/
def exitTest (value : Vec n → ℚ) (x d : Vec n) (fIn cache a : ℚ) : Prop :=
  value (vadd x a d) ≤ fIn + a * cache

/-- A successful run of the backtracking loop returns `alpha * rho^k` for the
smallest `k` accepted by the exit test. -/
theorem armijoLoop_some_spec (value : Vec n → ℚ) (x d : Vec n) (fIn cache : ℚ) :
    ∀ (fuel : ℕ) (alpha res : ℚ),
      armijoLoop value x d fIn cache fuel alpha = some res →
      ∃ k : ℕ, res = alpha * armijoRho ^ k ∧
        exitTest value x d fIn cache res ∧
        ∀ j < k, ¬ exitTest value x d fIn cache (alpha * armijoRho ^ j) := by
  intro fuel
  induction fuel with
  | zero =>
    intro alpha res h
    by_cases hc : value (vadd x alpha d) ≤ fIn + alpha * cache
    · simp only [armijoLoop, if_pos hc, Option.some.injEq] at h
      subst h
      exact ⟨0, by ring, hc, by omega⟩
    · simp [armijoLoop, if_neg hc] at h
  | succ fuel ih =>
    intro alpha res h
    by_cases hc : value (vadd x alpha d) ≤ fIn + alpha * cache
    · simp only [armijoLoop, if_pos hc, Option.some.injEq] at h
      subst h
      exact ⟨0, by ring, hc, by omega⟩
    · simp only [armijoLoop, if_neg hc] at h
      obtain ⟨k, hres, hexit, hmin⟩ := ih (alpha * armijoRho) res h
      refine ⟨k + 1, by rw [hres]; ring, hexit, ?_⟩
      intro j hj
      match j with
      | 0 =>
        simpa [exitTest] using hc
      | j + 1 =>
        have hstep : alpha * armijoRho ^ (j + 1) = alpha * armijoRho * armijoRho ^ j := by
          ring
        rw [hstep]
        exact hmin j (by omega)

/-- If the exit test accepts `alpha * rho^k`, then the loop run with fuel `k`
terminates (it exits at or before the k-th shrink). -/
theorem armijoLoop_some_of_test (value : Vec n → ℚ) (x d : Vec n) (fIn cache : ℚ) :
    ∀ (k : ℕ) (alpha : ℚ),
      exitTest value x d fIn cache (alpha * armijoRho ^ k) →
      ∃ res, armijoLoop value x d fIn cache k alpha = some res := by
  intro k
  induction k with
  | zero =>
    intro alpha h
    have h0 : value (vadd x alpha d) ≤ fIn + alpha * cache := by
      simpa [exitTest] using h
    exact ⟨alpha, by simp [armijoLoop, if_pos h0]⟩
  | succ k ih =>
    intro alpha h
    by_cases hc : value (vadd x alpha d) ≤ fIn + alpha * cache
    · exact ⟨alpha, by simp [armijoLoop, if_pos hc]⟩
    · have hstep : alpha * armijoRho ^ (k + 1) = alpha * armijoRho * armijoRho ^ k := by
        ring
      obtain ⟨res, hres⟩ := ih (alpha * armijoRho) (by rw [← hstep]; exact h)
      exact ⟨res, by simp only [armijoLoop, if_neg hc]; exact hres⟩

/-- If the exit test never accepts any `alpha * rho^k`, the loop returns
`none` for every fuel: the while loop never terminates. -/
theorem armijoLoop_none_of_never (value : Vec n → ℚ) (x d : Vec n) (fIn cache : ℚ) :
    ∀ (fuel : ℕ) (alpha : ℚ),
      (∀ k : ℕ, ¬ exitTest value x d fIn cache (alpha * armijoRho ^ k)) →
      armijoLoop value x d fIn cache fuel alpha = none := by
  intro fuel
  induction fuel with
  | zero =>
    intro alpha h
    have h0 : ¬ value (vadd x alpha d) ≤ fIn + alpha * cache := by
      simpa [exitTest] using h 0
    simp [armijoLoop, if_neg h0]
  | succ fuel ih =>
    intro alpha h
    have h0 : ¬ value (vadd x alpha d) ≤ fIn + alpha * cache := by
      simpa [exitTest] using h 0
    simp only [armijoLoop, if_neg h0]
    refine ih (alpha * armijoRho) ?_
    intro k
    have hstep : alpha * armijoRho * armijoRho ^ k = alpha * armijoRho ^ (k + 1) := by
      ring
    rw [hstep]
    exact h (k + 1)

/-- Concrete 1-dimensional problem (constant zero objective, no overrides)
used to instantiate hypotheses of general theorems. -/
def witnessP : Problem 1 :=
  { value := fun _ => 0, gradientOverride := none, hessianOverride := none }

/-- Concrete 1-dimensional zero vector. -/
def zeroVec : Vec 1 := fun _ => 0

/-- C1: an order-1 Armijo line search that terminates returns
`alpha = alpha_init * 0.9 ^ k` for the smallest `k ≥ 0` such that
`value(x + alpha*d) ≤ value(x) + alpha * 0.2 * (gradient(x) . d)`, and the
returned step satisfies that Armijo sufficient-decrease condition. -/
theorem claim1_armijo1_returns_least_accepted_step (P : Problem n) (x d : Vec n)
    (alphaInit : ℚ) (fuel : ℕ) (alpha : ℚ) (_hinit : 0 < alphaInit)
    (hterm : Armijo.linesearch P x d alphaInit fuel = some alpha) :
    ∃ k : ℕ, alpha = alphaInit * armijoRho ^ k ∧
      P.value (vadd x alpha d) ≤
        P.value x + alpha * (armijoC * dotP (P.gradient x) d) ∧
      ∀ j < k, ¬ (P.value (vadd x (alphaInit * armijoRho ^ j) d) ≤
        P.value x + alphaInit * armijoRho ^ j * (armijoC * dotP (P.gradient x) d)) := by
  obtain ⟨k, h1, h2, h3⟩ :=
    armijoLoop_some_spec P.value x d (P.value x) (armijoC * dotP (P.gradient x) d)
      fuel alphaInit alpha hterm
  refine ⟨k, h1, by simpa [exitTest] using h2, ?_⟩
  intro j hj
  simpa [exitTest] using h3 j hj

/-- Witness for C1 at a concrete input: the constant-zero objective accepts
the initial step immediately. -/
theorem claim1_armijo1_returns_least_accepted_step_witness :
    (0 : ℚ) < 1 ∧ Armijo.linesearch witnessP zeroVec zeroVec 1 0 = some 1 ∧
    ∃ k : ℕ, (1 : ℚ) = 1 * armijoRho ^ k ∧
      witnessP.value (vadd zeroVec 1 zeroVec) ≤
        witnessP.value zeroVec + 1 * (armijoC * dotP (Problem.gradient witnessP zeroVec) zeroVec) ∧
      ∀ j < k, ¬ (witnessP.value (vadd zeroVec (1 * armijoRho ^ j) zeroVec) ≤
        witnessP.value zeroVec +
          1 * armijoRho ^ j * (armijoC * dotP (Problem.gradient witnessP zeroVec) zeroVec)) :=
  ⟨by norm_num,
    by norm_num [Armijo.linesearch, armijoLoop, witnessP, zeroVec, dotP],
    claim1_armijo1_returns_least_accepted_step witnessP zeroVec zeroVec 1 0 1
      (by norm_num)
      (by norm_num [Armijo.linesearch, armijoLoop, witnessP, zeroVec, dotP])⟩

/-- C4: a Problem that overrides neither `gradient` nor `hessian` delegates
exactly to `finiteGradient` / `finiteHessian` at accuracy order 0. -/
theorem claim4_default_derivatives_are_finite_differences (P : Problem n) (x : Vec n)
    (hg : P.gradientOverride = none) (hh : P.hessianOverride = none) :
    Problem.gradient P x = finiteGradient P.value x 0 ∧
    Problem.hessian P x = finiteHessian P.value x 0 := by
  constructor
  · simp [Problem.gradient, hg]
  · simp [Problem.hessian, hh]

/-- Witness for C4 at a concrete problem with no overrides. -/
theorem claim4_default_derivatives_are_finite_differences_witness :
    witnessP.gradientOverride = none ∧ witnessP.hessianOverride = none ∧
    (Problem.gradient witnessP zeroVec = finiteGradient witnessP.value zeroVec 0 ∧
     Problem.hessian witnessP zeroVec = finiteHessian witnessP.value zeroVec 0) :=
  ⟨rfl, rfl, claim4_default_derivatives_are_finite_differences witnessP zeroVec rfl rfl⟩

/-- C5: `checkGradient` returns `true` iff every coordinate of the
(possibly overridden) gradient matches the finite-difference gradient within
`1e-2 * max(|analytic|, |numeric|, 1)`; it is a total boolean-valued function
(no exception, no state change). -/
theorem claim5_checkGradient_boolean_tolerance_test (P : Problem n) (x : Vec n)
    (accuracy : ℕ) :
    checkGradient P x accuracy = true ↔
      ∀ d : Fin n,
        |Problem.gradient P x d - finiteGradient P.value x accuracy d| ≤
          1 / 100 * max (max |Problem.gradient P x d| |finiteGradient P.value x accuracy d|) 1 := by
  simp [checkGradient, List.all_eq_true, List.mem_finRange, not_lt]

/-- C7: a freshly default-constructed BoundedProblem reports lower bound
minus infinity and upper bound plus infinity componentwise. -/
theorem claim7_default_bounds_are_infinite (n : ℕ) (i : Fin n) :
    (BoundedProblem.mkDefault n).lowerBound i = XScalar.negInf ∧
    (BoundedProblem.mkDefault n).upperBound i = XScalar.posInf :=
  ⟨rfl, rfl⟩

/-- C8: the backtracking loop multiplies `alpha` by `rho = 0.9` on every
failed iteration (strict decrease for positive steps); it terminates as soon
as some `k` makes the Armijo test hold at `alpha_init * 0.9^k`, and when no
such `k` exists it never terminates (no fuel suffices: there is no iteration
cap). -/
theorem claim8_armijo1_termination_dichotomy (P : Problem n) (x d : Vec n)
    (alphaInit : ℚ) (_hinit : 0 < alphaInit) :
    ((∃ k : ℕ, P.value (vadd x (alphaInit * armijoRho ^ k) d) ≤
        P.value x + alphaInit * armijoRho ^ k * (armijoC * dotP (P.gradient x) d)) →
      ∃ fuel res, Armijo.linesearch P x d alphaInit fuel = some res) ∧
    ((∀ k : ℕ, ¬ P.value (vadd x (alphaInit * armijoRho ^ k) d) ≤
        P.value x + alphaInit * armijoRho ^ k * (armijoC * dotP (P.gradient x) d)) →
      ∀ fuel, Armijo.linesearch P x d alphaInit fuel = none) ∧
    (∀ alpha : ℚ, 0 < alpha → alpha * armijoRho < alpha) := by
  refine ⟨?_, ?_, ?_⟩
  · rintro ⟨k, hk⟩
    obtain ⟨res, hres⟩ :=
      armijoLoop_some_of_test P.value x d (P.value x)
        (armijoC * dotP (P.gradient x) d) k alphaInit (by simpa [exitTest] using hk)
    exact ⟨k, res, hres⟩
  · intro h fuel
    exact armijoLoop_none_of_never P.value x d (P.value x)
      (armijoC * dotP (P.gradient x) d) fuel alphaInit
      (fun k => by simpa [exitTest] using h k)
  · intro alpha ha
    rw [armijoRho]
    linarith

/-- Witness for C8 at a concrete positive initial step. -/
theorem claim8_armijo1_termination_dichotomy_witness :
    (0 : ℚ) < 1 ∧
    (((∃ k : ℕ, witnessP.value (vadd zeroVec (1 * armijoRho ^ k) zeroVec) ≤
        witnessP.value zeroVec +
          1 * armijoRho ^ k * (armijoC * dotP (Problem.gradient witnessP zeroVec) zeroVec)) →
      ∃ fuel res, Armijo.linesearch witnessP zeroVec zeroVec 1 fuel = some res) ∧
    ((∀ k : ℕ, ¬ witnessP.value (vadd zeroVec (1 * armijoRho ^ k) zeroVec) ≤
        witnessP.value zeroVec +
          1 * armijoRho ^ k * (armijoC * dotP (Problem.gradient witnessP zeroVec) zeroVec)) →
      ∀ fuel, Armijo.linesearch witnessP zeroVec zeroVec 1 fuel = none) ∧
    (∀ alpha : ℚ, 0 < alpha → alpha * armijoRho < alpha)) :=
  ⟨by norm_num, claim8_armijo1_termination_dichotomy witnessP zeroVec zeroVec 1 (by norm_num)⟩

/-- C9: none of the core entry points mutates the caller-owned input point or
search direction; results are delivered only through the return value or the
explicit out-parameter.  In the embedding each call maps the caller store to
the store after the call, mirroring which variables the source body assigns:
the const-reference inputs are never assigned. -/
theorem claim9_inputs_are_not_mutated (P : Problem n) (accuracy : ℕ)
    (alphaInit : ℚ) (fuel : ℕ) (s : CallerStore n) :
    (finiteGradientCall P accuracy s).x = s.x ∧
    (finiteHessianCall P accuracy s).x = s.x ∧
    ((checkGradientCall P accuracy s).1).x = s.x ∧
    ((checkHessianCall P accuracy s).1).x = s.x ∧
    ((linesearchCall P alphaInit fuel s).1).x = s.x ∧
    ((linesearchCall P alphaInit fuel s).1).searchDir = s.searchDir :=
  ⟨rfl, rfl, rfl, rfl, rfl, rfl⟩

/-- Quadratic objective `value(x) = 0.5 * x^T A x - b^T x`. -/
def quadValue (A : Mat n) (b : Vec n) (x : Vec n) : ℚ :=
  1 / 2 * dotP x (matVec A x) - dotP b x

/-- Analytic gradient of the quadratic objective (for symmetric `A`):
`A x - b`. -/
def quadGrad (A : Mat n) (b : Vec n) (x : Vec n) : Vec n :=
  fun i => matVec A x i - b i

/-- A concrete Problem subclass for the quadratic objective, overriding
`gradient` and `hessian` with the analytic derivatives. -/
def quadProblem (A : Mat n) (b : Vec n) : Problem n :=
  { value := quadValue A b
    gradientOverride := some (quadGrad A b)
    hessianOverride := some (fun _ => A) }

/-- Dot product is linear in an affine combination on the left. -/
theorem dotP_vadd_left (x d w : Vec n) (t : ℚ) :
    dotP (vadd x t d) w = dotP x w + t * dotP d w := by
  simp [dotP, vadd, add_mul, Finset.sum_add_distrib, Finset.mul_sum, mul_assoc]

/-- Dot product is linear in an affine combination on the right. -/
theorem dotP_vadd_right (w x d : Vec n) (t : ℚ) :
    dotP w (vadd x t d) = dotP w x + t * dotP w d := by
  simp [dotP, vadd, mul_add, Finset.sum_add_distrib, Finset.mul_sum, mul_left_comm]

/-- Dot product is commutative. -/
theorem dotP_comm (u v : Vec n) : dotP u v = dotP v u := by
  simp [dotP, mul_comm]

/-- Matrix-vector product distributes over an affine combination. -/
theorem matVec_vadd (A : Mat n) (x d : Vec n) (t : ℚ) :
    matVec A (vadd x t d) = vadd (matVec A x) t (matVec A d) := by
  funext i
  simp [matVec, vadd, mul_add, Finset.sum_add_distrib, Finset.mul_sum, mul_left_comm]

/-- For symmetric `A` the bilinear form is symmetric:
`d . (A x) = x . (A d)`. -/
theorem dotP_matVec_comm (A : Mat n) (hsym : ∀ i j, A i j = A j i) (x d : Vec n) :
    dotP d (matVec A x) = dotP x (matVec A d) := by
  unfold dotP matVec
  have h1 : ∀ (u v : Vec n) (B : Mat n),
      (∑ i, u i * ∑ j, B i j * v j) = ∑ i, ∑ j, u i * (B i j * v j) :=
    fun u v B => Finset.sum_congr rfl fun i _ => Finset.mul_sum _ _ _
  rw [h1, h1, Finset.sum_comm]
  refine Finset.sum_congr rfl fun y _ => Finset.sum_congr rfl fun z _ => ?_
  rw [hsym z y]
  ring
  

/-- Coordinate basis vector. -/
def delta (i : Fin n) : Vec n := fun k => if k = i then 1 else 0

/-- A coordinate increment is a step along a basis vector. -/
theorem bump_eq_vadd_delta (x : Vec n) (i : Fin n) (e : ℚ) :
    bump x i e = vadd x e (delta i) := by
  funext k
  simp only [bump_apply, vadd, delta]
  by_cases h : k = i <;> simp [h]

/-- Dot product against a basis vector picks a coordinate. -/
theorem dotP_delta_right (u : Vec n) (j : Fin n) : dotP u (delta j) = u j := by
  simp [dotP, delta, mul_ite, Finset.sum_ite_eq, Finset.sum_ite_eq']

/-- The bilinear form at two basis vectors picks a matrix entry (for
symmetric `A`, in `(i, j)` orientation). -/
theorem dotP_matVec_delta (A : Mat n) (hsym : ∀ i j, A i j = A j i) (i j : Fin n) :
    dotP (matVec A (delta i)) (delta j) = A i j := by
  rw [dotP_delta_right]
  simp [matVec, delta, mul_ite, Finset.sum_ite_eq, Finset.sum_ite_eq', hsym j i]

/-- The analytic gradient of the quadratic objective is affine. -/
theorem quadGrad_vadd (A : Mat n) (b x d : Vec n) (t : ℚ) :
    quadGrad A b (vadd x t d) = vadd (quadGrad A b x) t (matVec A d) := by
  funext i
  have h := congrFun (matVec_vadd A x d t) i
  simp only [quadGrad, h, vadd]
  ring

/-- Second-order Taylor expansion of the quadratic objective along a ray
(exact, `A` symmetric). -/
theorem quad_expand (A : Mat n) (b : Vec n) (hsym : ∀ i j, A i j = A j i)
    (x d : Vec n) (t : ℚ) :
    quadValue A b (vadd x t d) =
      quadValue A b x + t * dotP (quadGrad A b x) d +
        t ^ 2 * dotP d (matVec A d) / 2 := by
  have hgd : dotP (quadGrad A b x) d = dotP d (matVec A x) - dotP b d := by
    have h1 : dotP (quadGrad A b x) d = dotP (matVec A x) d - dotP b d := by
      simp [quadGrad, dotP, sub_mul, Finset.sum_sub_distrib]
    rw [h1, dotP_comm]
  have hx : dotP x (matVec A d) = dotP d (matVec A x) :=
    (dotP_matVec_comm A hsym x d).symm
  simp only [quadValue, matVec_vadd, dotP_vadd_left, dotP_vadd_right]
  rw [hx, hgd]
  ring

/-- The `accuracy == 0` entry of `finiteHessian` is the 4-point symmetric
second difference `(f(x+e_i+e_j) - f(x+e_i) - f(x+e_j) + f(x)) / eps^2`
(coordinate steps of size `hessEps`). -/
theorem finiteHessian_zero_apply (value : Vec n → ℚ) (x : Vec n) (i j : Fin n) :
    finiteHessian value x 0 i j =
      (value (bump (bump x i hessEps) j hessEps) - value (bump x i hessEps) -
        value (bump x j hessEps) + value x) / (hessEps * hessEps) := by
  have h2 : bump (bump (bump x i hessEps) j hessEps) j (-hessEps) = bump x i hessEps := by
    rw [bump_bump_same]
    simp [bump_zero]
  have h3 : bump (bump (bump x i hessEps) j hessEps) i (-hessEps) = bump x j hessEps := by
    rw [bump_comm (bump x i hessEps) j i hessEps (-hessEps), bump_bump_same]
    simp [bump_zero]
  simp only [finiteHessian, if_pos]
  rw [h2, h3]

/-- C6: for a quadratic objective `0.5 x^T A x - b^T x` with `A` symmetric,
the accuracy-0 finite-difference Hessian entry equals `A(i,j)` exactly in
exact arithmetic, hence in particular within `1e-4` absolute tolerance. -/
theorem claim6_quadratic_finiteHessian_exact (A : Mat n) (b x : Vec n)
    (hsym : ∀ i j, A i j = A j i) (i j : Fin n) :
    finiteHessian (quadValue A b) x 0 i j = A i j ∧
    |finiteHessian (quadValue A b) x 0 i j - A i j| ≤ 1 / 10 ^ 4 := by
  have he : (hessEps : ℚ) ≠ 0 := by norm_num [hessEps]
  have hmain : finiteHessian (quadValue A b) x 0 i j = A i j := by
    rw [finiteHessian_zero_apply]
    simp only [bump_eq_vadd_delta, quad_expand A b hsym, quadGrad_vadd, dotP_vadd_left,
      dotP_matVec_delta A hsym]
    field_simp
    ring
  refine ⟨hmain, ?_⟩
  rw [hmain]
  simp

/-- Concrete symmetric 2-by-2 matrix for witnesses. -/
def witnessA : Mat 2 := fun i j => if i = j then 2 else 1

/-- Concrete 2-vector for witnesses. -/
def witnessB : Vec 2 := fun _ => 1

/-- Concrete 2-dimensional evaluation point for witnesses. -/
def witnessX : Vec 2 := fun _ => 3

/-- Witness for C6 at a concrete symmetric matrix and point. -/
theorem claim6_quadratic_finiteHessian_exact_witness :
    (∀ i j, witnessA i j = witnessA j i) ∧
    (finiteHessian (quadValue witnessA witnessB) witnessX 0 0 1 = witnessA 0 1 ∧
     |finiteHessian (quadValue witnessA witnessB) witnessX 0 0 1 - witnessA 0 1| ≤ 1 / 10 ^ 4) :=
  ⟨by decide, claim6_quadratic_finiteHessian_exact witnessA witnessB witnessX (by decide) 0 1⟩

/-- C3: for accuracy level `a ≤ 3` and every coordinate `d`, the
finite-difference gradient entry is the weighted sum, over the `2*(a+1)`
stencil offsets scaled by `eps = 2.2204e-6`, of the objective values,
weighted by the level-a coefficient table and divided by `dd[a] * eps`
with `dd = [2, 12, 60, 840]`; the entry depends only on `x` and `d`. -/
theorem claim3_finiteGradient_stencil_formula (value : Vec n → ℚ) (x : Vec n)
    (a : ℕ) (ha : a ≤ 3) (d : Fin n) :
    finiteGradient value x a d =
      (∑ s ∈ Finset.range (2 * (a + 1)),
          (fdCoeff.getD a []).getD s 0 *
            value (bump x d ((fdCoeff2.getD a []).getD s 0 * (22204 / 10 ^ 10)))) /
        ([(2 : ℚ), 12, 60, 840].getD a 0 * (22204 / 10 ^ 10)) := by
  interval_cases a <;>
    simp [finiteGradient, fdEps, fdDD, Finset.sum_range_succ, List.range_succ, add_assoc]

/-- Witness for C3 at a concrete accuracy level and input. -/
theorem claim3_finiteGradient_stencil_formula_witness :
    (0 : ℕ) ≤ 3 ∧
    finiteGradient (fun v => v 0) witnessX 0 0 =
      (∑ s ∈ Finset.range (2 * (0 + 1)),
          (fdCoeff.getD 0 []).getD s 0 *
            (fun v : Vec 2 => v 0) (bump witnessX 0 ((fdCoeff2.getD 0 []).getD s 0 * (22204 / 10 ^ 10)))) /
        ([(2 : ℚ), 12, 60, 840].getD 0 0 * (22204 / 10 ^ 10)) :=
  ⟨by decide, claim3_finiteGradient_stencil_formula (fun v => v 0) witnessX 0 (by decide) 0⟩

/-- C10: the finite-difference Hessian is exactly symmetric in exact
arithmetic, in both the accuracy-0 branch and the higher-accuracy branch,
for every objective and every point. -/
theorem claim10_finiteHessian_symmetric (value : Vec n → ℚ) (x : Vec n)
    (accuracy : ℕ) (i j : Fin n) :
    finiteHessian value x accuracy i j = finiteHessian value x accuracy j i := by
  have hsw : ∀ a b : ℚ, bump (bump x j a) i b = bump (bump x i b) j a :=
    fun a b => bump_comm x j i a b
  rcases Nat.eq_zero_or_pos accuracy with h0 | hpos
  · subst h0
    rw [finiteHessian_zero_apply, finiteHessian_zero_apply, hsw]
    ring
  · have hne : accuracy ≠ 0 := Nat.pos_iff_ne_zero.mp hpos
    simp only [finiteHessian, if_neg hne, hsw]
    ring

/-- If the exit test rejects the first `K` candidate steps and accepts the
K-th shrink, the loop with fuel at least `K` returns exactly
`alpha * rho ^ K`. -/
theorem armijoLoop_run (value : Vec n → ℚ) (x d : Vec n) (fIn cache : ℚ) :
    ∀ (K fuel : ℕ) (alpha : ℚ), K ≤ fuel →
      (∀ m < K, ¬ exitTest value x d fIn cache (alpha * armijoRho ^ m)) →
      exitTest value x d fIn cache (alpha * armijoRho ^ K) →
      armijoLoop value x d fIn cache fuel alpha = some (alpha * armijoRho ^ K) := by
  intro K
  induction K with
  | zero =>
    intro fuel alpha _ _ hok
    have h0 : value (vadd x alpha d) ≤ fIn + alpha * cache := by
      simpa [exitTest] using hok
    cases fuel with
    | zero => simp [armijoLoop, if_pos h0]
    | succ f => simp [armijoLoop, if_pos h0]
  | succ K ih =>
    intro fuel alpha hK hfail hok
    obtain ⟨f, rfl⟩ : ∃ f, fuel = f + 1 := ⟨fuel - 1, by omega⟩
    have h0 : ¬ value (vadd x alpha d) ≤ fIn + alpha * cache := by
      simpa [exitTest] using hfail 0 (by omega)
    have hstep : ∀ m : ℕ, alpha * armijoRho * armijoRho ^ m = alpha * armijoRho ^ (m + 1) :=
      fun m => by ring
    have hrec := ih f (alpha * armijoRho) (by omega)
      (fun m hm => by rw [hstep m]; exact hfail (m + 1) (by omega))
      (by rw [hstep K]; exact hok)
    calc armijoLoop value x d fIn cache (f + 1) alpha
        = armijoLoop value x d fIn cache f (alpha * armijoRho) := by
          simp only [armijoLoop, if_neg h0]
      _ = some (alpha * armijoRho * armijoRho ^ K) := hrec
      _ = some (alpha * armijoRho ^ (K + 1)) := by rw [hstep K]

/-- C2 (amended): for a quadratic bowl objective (symmetric positive-definite
`A`) and any direction with `gradient(x) . d < 0`, the order-1 Armijo search
terminates with a step `alpha` in `(0, alpha_init]` satisfying
`f(x + alpha d) ≤ f(x)`, and the order-2 Armijo search terminates with a step
`alpha` in `(0, 1]` (its fixed initial step is `1.0`).  The order-2 step need
not decrease `f`; see the counterexample theorem. -/
theorem claim2_amended_armijo_on_quadratic_bowl (A : Mat n) (b x d : Vec n)
    (alphaInit : ℚ) (hsym : ∀ i j, A i j = A j i)
    (hpd : ∀ v : Vec n, v ≠ 0 → 0 < dotP v (matVec A v))
    (hdesc : dotP (Problem.gradient (quadProblem A b) x) d < 0)
    (hinit : 0 < alphaInit) :
    (∃ fuel alpha, Armijo.linesearch (quadProblem A b) x d alphaInit fuel = some alpha ∧
      0 < alpha ∧ alpha ≤ alphaInit ∧
      quadValue A b (vadd x alpha d) ≤ quadValue A b x) ∧
    (∃ fuel alpha, Armijo2.linesearch (quadProblem A b) x d fuel = some alpha ∧
      0 < alpha ∧ alpha ≤ 1) := by
  have hc : armijoC = 1 / 5 := by norm_num [armijoC]
  have hgd : dotP (quadGrad A b x) d < 0 := hdesc
  have hd0 : d ≠ 0 := by
    intro h
    rw [h] at hgd
    simp [dotP] at hgd
  have hQ : 0 < dotP d (matVec A d) := hpd d hd0
  have hrho0 : (0 : ℚ) < armijoRho := by norm_num [armijoRho]
  have hrho1 : armijoRho < 1 := by norm_num [armijoRho]
  constructor
  · -- order-1 part
    have htpos : 0 < -2 * (1 - armijoC) * dotP (quadGrad A b x) d / dotP d (matVec A d) / alphaInit := by
      rw [hc]
      apply div_pos (div_pos (by nlinarith [hgd]) hQ) hinit
    obtain ⟨k, hk⟩ := exists_pow_lt_of_lt_one htpos hrho1
    have hbpos : 0 < alphaInit * armijoRho ^ k := mul_pos hinit (pow_pos hrho0 k)
    have hblt : alphaInit * armijoRho ^ k * dotP d (matVec A d) <
        -2 * (1 - armijoC) * dotP (quadGrad A b x) d := by
      have h1 : armijoRho ^ k * alphaInit <
          -2 * (1 - armijoC) * dotP (quadGrad A b x) d / dotP d (matVec A d) :=
        (lt_div_iff₀ hinit).mp hk
      rw [mul_comm] at h1
      exact (lt_div_iff₀ hQ).mp h1
    have hexit : exitTest (quadProblem A b).value x d ((quadProblem A b).value x)
        (armijoC * dotP (Problem.gradient (quadProblem A b) x) d)
        (alphaInit * armijoRho ^ k) := by
      show quadValue A b (vadd x (alphaInit * armijoRho ^ k) d) ≤
        quadValue A b x + alphaInit * armijoRho ^ k * (armijoC * dotP (quadGrad A b x) d)
      rw [quad_expand A b hsym]
      rw [hc] at hblt ⊢
      nlinarith [mul_lt_mul_of_pos_left hblt (show (0:ℚ) < (alphaInit * armijoRho ^ k) / 2 by positivity)]
    obtain ⟨res, hres⟩ := armijoLoop_some_of_test (quadProblem A b).value x d
      ((quadProblem A b).value x)
      (armijoC * dotP (Problem.gradient (quadProblem A b) x) d) k alphaInit hexit
    obtain ⟨m, hm_eq, hm_exit, _⟩ := armijoLoop_some_spec (quadProblem A b).value x d
      ((quadProblem A b).value x)
      (armijoC * dotP (Problem.gradient (quadProblem A b) x) d) k alphaInit res hres
    have hrespos : 0 < res := by
      rw [hm_eq]
      exact mul_pos hinit (pow_pos hrho0 m)
    refine ⟨k, res, hres, hrespos, ?_, ?_⟩
    · rw [hm_eq]
      calc alphaInit * armijoRho ^ m ≤ alphaInit * 1 :=
            mul_le_mul_of_nonneg_left (pow_le_one₀ (le_of_lt hrho0) (le_of_lt hrho1))
              (le_of_lt hinit)
        _ = alphaInit := mul_one alphaInit
    · have hdecr : quadValue A b (vadd x res d) ≤
          quadValue A b x + res * (armijoC * dotP (quadGrad A b x) d) := hm_exit
      have hneg : res * (armijoC * dotP (quadGrad A b x) d) ≤ 0 := by
        rw [hc]
        nlinarith [hrespos, hgd]
      linarith
  · -- order-2 part
    have htpos2 : 0 < (2 * (armijoC - 1) * dotP (quadGrad A b x) d +
        armijoC * armijoC * dotP d (matVec A d)) / dotP d (matVec A d) := by
      rw [hc]
      apply div_pos (by nlinarith [hgd, hQ]) hQ
    obtain ⟨k, hk⟩ := exists_pow_lt_of_lt_one htpos2 hrho1
    have hbpos : 0 < (1 : ℚ) * armijoRho ^ k := by
      rw [one_mul]
      exact pow_pos hrho0 k
    have hblt2 : (1 : ℚ) * armijoRho ^ k * dotP d (matVec A d) <
        2 * (armijoC - 1) * dotP (quadGrad A b x) d +
          armijoC * armijoC * dotP d (matVec A d) := by
      rw [one_mul]
      exact (lt_div_iff₀ hQ).mp hk
    have hexit2 : exitTest (quadProblem A b).value x d ((quadProblem A b).value x)
        (armijoC * dotP (Problem.gradient (quadProblem A b) x) d +
          1 / 2 * armijoC * armijoC *
            dotP d (matVec (Problem.hessian (quadProblem A b) x) d))
        ((1 : ℚ) * armijoRho ^ k) := by
      show quadValue A b (vadd x ((1 : ℚ) * armijoRho ^ k) d) ≤
        quadValue A b x + (1 : ℚ) * armijoRho ^ k *
          (armijoC * dotP (quadGrad A b x) d +
            1 / 2 * armijoC * armijoC * dotP d (matVec A d))
      rw [quad_expand A b hsym]
      rw [hc] at hblt2 ⊢
      nlinarith [mul_lt_mul_of_pos_left hblt2
        (show (0:ℚ) < ((1 : ℚ) * armijoRho ^ k) / 2 by positivity)]
    obtain ⟨res, hres⟩ := armijoLoop_some_of_test (quadProblem A b).value x d
      ((quadProblem A b).value x)
      (armijoC * dotP (Problem.gradient (quadProblem A b) x) d +
        1 / 2 * armijoC * armijoC *
          dotP d (matVec (Problem.hessian (quadProblem A b) x) d)) k 1 hexit2
    obtain ⟨m, hm_eq, _, _⟩ := armijoLoop_some_spec (quadProblem A b).value x d
      ((quadProblem A b).value x)
      (armijoC * dotP (Problem.gradient (quadProblem A b) x) d +
        1 / 2 * armijoC * armijoC *
          dotP d (matVec (Problem.hessian (quadProblem A b) x) d)) k 1 res hres
    refine ⟨k, res, hres, ?_, ?_⟩
    · rw [hm_eq, one_mul]
      exact pow_pos hrho0 m
    · rw [hm_eq, one_mul]
      exact pow_le_one₀ (le_of_lt hrho0) (le_of_lt hrho1)

/-- Concrete 1-dimensional stiff quadratic bowl: `A = [[20]]`. -/
def cexA : Mat 1 := fun _ _ => 20

/-- Concrete right-hand side `b = 0`. -/
def cexB : Vec 1 := fun _ => 0

/-- Concrete start point `x = -1/20` (so the gradient there is `-1`). -/
def cexX : Vec 1 := fun _ => -(1 / 20)

/-- Concrete descent direction `d = 1`. -/
def cexD : Vec 1 := fun _ => 1

/-- The concrete bowl matrix is positive definite. -/
theorem cexA_posdef : ∀ v : Vec 1, v ≠ 0 → 0 < dotP v (matVec cexA v) := by
  intro v hv
  have hv0 : v 0 ≠ 0 := by
    intro h0
    apply hv
    funext k
    have hk : k = 0 := Subsingleton.elim k 0
    rw [hk]
    exact h0
  have hsq : 0 < v 0 * v 0 := mul_self_pos.mpr hv0
  simp only [dotP, matVec, cexA, Fin.sum_univ_one]
  nlinarith [hsq]

/-- At the concrete start point the direction is a descent direction. -/
theorem cexDesc : dotP (Problem.gradient (quadProblem cexA cexB) cexX) cexD < 0 := by
  simp [Problem.gradient, quadProblem, quadGrad, dotP, matVec, cexA, cexB, cexX, cexD,
    Fin.sum_univ_one]

/-- Witness for the amended C2 at the concrete bowl. -/
theorem claim2_amended_armijo_on_quadratic_bowl_witness :
    (∀ i j, cexA i j = cexA j i) ∧ (0 : ℚ) < 1 ∧
    ((∃ fuel alpha,
        Armijo.linesearch (quadProblem cexA cexB) cexX cexD 1 fuel = some alpha ∧
        0 < alpha ∧ alpha ≤ 1 ∧
        quadValue cexA cexB (vadd cexX alpha cexD) ≤ quadValue cexA cexB cexX) ∧
      (∃ fuel alpha,
        Armijo2.linesearch (quadProblem cexA cexB) cexX cexD fuel = some alpha ∧
        0 < alpha ∧ alpha ≤ 1)) :=
  ⟨by decide, by norm_num,
    claim2_amended_armijo_on_quadratic_bowl cexA cexB cexX cexD 1 (by decide)
      cexA_posdef cexDesc (by norm_num)⟩

/-- C2 counterexample: at the concrete quadratic bowl (`A = [[20]]`, `b = 0`,
`x = -1/20`, `d = 1`, a descent direction since `gradient(x) . d = -1 < 0`,
positive definite `A` as shown above), the order-2 Armijo search terminates
and returns `alpha = 0.9 ^ 21`, yet the objective at the returned step is
strictly LARGER than at `x`: the order-2 variant does not guarantee
`f(x + alpha d) ≤ f(x)`. -/
theorem claim2_counterexample_armijo2_increases_value :
    Armijo2.linesearch (quadProblem cexA cexB) cexX cexD 30 = some (armijoRho ^ 21) ∧
    quadValue cexA cexB cexX <
      quadValue cexA cexB (vadd cexX (armijoRho ^ 21) cexD) := by
  have hval : ∀ alpha : ℚ,
      quadValue cexA cexB (vadd cexX alpha cexD) = 10 * alpha ^ 2 - alpha + 1 / 40 := by
    intro alpha
    simp [quadValue, dotP, matVec, vadd, cexA, cexB, cexX, cexD, Fin.sum_univ_one]
    ring
  have hfIn : quadValue cexA cexB cexX = 1 / 40 := by
    simp [quadValue, dotP, matVec, cexA, cexB, cexX, Fin.sum_univ_one]
    norm_num
  have hcache : armijoC * dotP (Problem.gradient (quadProblem cexA cexB) cexX) cexD +
      1 / 2 * armijoC * armijoC *
        dotP cexD (matVec (Problem.hessian (quadProblem cexA cexB) cexX) cexD) = 1 / 5 := by
    simp [Problem.gradient, Problem.hessian, quadProblem, quadGrad, dotP, matVec,
      cexA, cexB, cexX, cexD, Fin.sum_univ_one, armijoC]
    norm_num
  have hls : Armijo2.linesearch (quadProblem cexA cexB) cexX cexD 30 =
      armijoLoop (quadProblem cexA cexB).value cexX cexD (1 / 40) (1 / 5) 30 1 := by
    show armijoLoop (quadProblem cexA cexB).value cexX cexD
        ((quadProblem cexA cexB).value cexX)
        (armijoC * dotP (Problem.gradient (quadProblem cexA cexB) cexX) cexD +
          1 / 2 * armijoC * armijoC *
            dotP cexD (matVec (Problem.hessian (quadProblem cexA cexB) cexX) cexD)) 30 1 =
      armijoLoop (quadProblem cexA cexB).value cexX cexD (1 / 40) (1 / 5) 30 1
    rw [show (quadProblem cexA cexB).value cexX = 1 / 40 from hfIn, hcache]
  have htest : ∀ alpha : ℚ,
      exitTest (quadProblem cexA cexB).value cexX cexD (1 / 40) (1 / 5) alpha ↔
        10 * alpha ^ 2 ≤ 6 / 5 * alpha := by
    intro alpha
    show (quadProblem cexA cexB).value (vadd cexX alpha cexD) ≤
        1 / 40 + alpha * (1 / 5) ↔ 10 * alpha ^ 2 ≤ 6 / 5 * alpha
    rw [show (quadProblem cexA cexB).value (vadd cexX alpha cexD) =
      10 * alpha ^ 2 - alpha + 1 / 40 from hval alpha]
    constructor <;> intro h <;> linarith
  have hrho0 : (0 : ℚ) < armijoRho := by norm_num [armijoRho]
  have hrun : armijoLoop (quadProblem cexA cexB).value cexX cexD (1 / 40) (1 / 5) 30 1 =
      some (1 * armijoRho ^ 21) := by
    refine armijoLoop_run (quadProblem cexA cexB).value cexX cexD (1 / 40) (1 / 5)
      21 30 1 (by norm_num) ?_ ?_
    · intro m hm
      rw [htest, one_mul]
      have h20 : armijoRho ^ 20 ≤ armijoRho ^ m :=
        pow_le_pow_of_le_one (le_of_lt hrho0) (by norm_num [armijoRho]) (by omega)
      have hgt : (3 / 25 : ℚ) < armijoRho ^ m :=
        lt_of_lt_of_le (by norm_num [armijoRho]) h20
      have hpos : 0 < armijoRho ^ m := pow_pos hrho0 m
      intro hcon
      nlinarith [mul_lt_mul_of_pos_right hgt hpos]
    · rw [htest, one_mul]
      norm_num [armijoRho]
  constructor
  · rw [hls, hrun, one_mul]
  · rw [hval (armijoRho ^ 21), hfIn]
    norm_num [armijoRho]
